import Mathlib

/-!
Shallow embedding of the grind-helper repository.

Engine side (`src/default/main.py`): the ratio-aggregation and selection
algorithm of `interpret`, together with the cache-tolerant `get_tags` lookup.
Python dicts become association lists that keep first-insertion key order and
overwrite values in place; Python sets of slugs become duplicate-free lists
(insertion order); float ratios become exact rationals (`ℚ`); the calls to
`random.choice` are modelled by an oracle `rand : ℕ → ℕ` supplying one natural
number per call site, reduced modulo the length of the list being chosen from.
Python's `sorted` (stable, ascending) is modelled by a stable insertion sort;
a stable sort's output is uniquely determined by the key order, so any stable
sort is extensionally faithful.

Worker side (`src/worker/main.py`): the memcache store becomes an association
list of (key, value, ttl) entries where a `set` prepends (so the newest write
for a key is the one a read finds), and `invalidate_cache` is modelled as a
function from the provider, the drawn TTL jitter, the prior cache state and
the slug to the new cache state, a flag recording whether the upstream
provider was queried, and the ordered log of writes performed.
-/

namespace GrindHelper

/-- Outcome of a memcache read on the request path: a stored value, absence
(Python `None`), or a raised exception. -/
inductive CacheResult (α : Type) where
  | ok : α → CacheResult α
  | absent : CacheResult α
  | err : CacheResult α
deriving DecidableEq

/-- `get_tags` (src/default/main.py lines 94-105): read key `f"{slug}_tags"`;
absence (`None or []`) and any raised exception both yield the empty tag
list. -/
def get_tags (cache : String → CacheResult (List String)) (slug : String) :
    List String :=
  match cache (slug ++ "_tags") with
  | CacheResult.ok tags => tags
  | CacheResult.absent => []
  | CacheResult.err => []

/-- The `TagInfo` dataclass (src/default/main.py lines 108-111); the Python
sets `solved` and `left` are modelled as duplicate-free lists in insertion
order. -/
structure TagInfo where
  solved : List String
  left : List String
deriving DecidableEq

/-- `set.add` on one of the two `TagInfo` sets: append the slug unless already
present (Python set semantics). -/
def insertSlug (ti : TagInfo) (slug : String) (isSolved : Bool) : TagInfo :=
  if isSolved then
    if slug ∈ ti.solved then ti else { ti with solved := ti.solved ++ [slug] }
  else
    if slug ∈ ti.left then ti else { ti with left := ti.left ++ [slug] }

/-- One `tag_info_map.setdefault(tag, TagInfo())` followed by adding `slug` to
the tag's `solved`/`left` set (src/default/main.py lines 145-150): update the
entry in place if the key exists, else append a fresh entry (Python dicts keep
first-insertion key order). -/
def updateTagMap : List (String × TagInfo) → String → String → Bool →
    List (String × TagInfo)
  | [], tag, slug, isSolved => [(tag, insertSlug ⟨[], []⟩ slug isSolved)]
  | (t, ti) :: rest, tag, slug, isSolved =>
      if t = tag then (t, insertSlug ti slug isSolved) :: rest
      else (t, ti) :: updateTagMap rest tag slug isSolved

/-- The double loop building `tag_info_map` (src/default/main.py lines
140-150): for each (slug, solved) pair in order, for each tag of that slug in
order, add the slug to that tag's `solved` or `left` set. -/
def buildTagInfoMap (pairs : List (String × Bool))
    (tagsOf : String → List String) : List (String × TagInfo) :=
  pairs.foldl
    (fun m p => (tagsOf p.1).foldl (fun m2 tag => updateTagMap m2 tag p.1 p.2) m)
    []

/-- One key/value insertion into a Python dict: overwrite in place when the
key exists (keeping its first-insertion position), else append. -/
def dictInsert (m : List (String × Bool)) (k : String) (v : Bool) :
    List (String × Bool) :=
  if m.any (fun p => p.1 == k) then
    m.map (fun p => if p.1 == k then (k, v) else p)
  else m ++ [(k, v)]

/-- The dict comprehension semantics used for `slug_to_solved_status`
(src/default/main.py lines 125-128): entries are inserted in input order, so a
repeated slug keeps its first position but the value of its last occurrence. -/
def buildSolvedMap (pairs : List (String × Bool)) : List (String × Bool) :=
  pairs.foldl (fun m p => dictInsert m p.1 p.2) []

/-- `True if pair["status"] == "ac" else False` (src/default/main.py line
126); the raw `status` field is a nullable string. -/
def statusToSolved (status : Option String) : Bool := status == some "ac"

/-- `slug_to_solved_status` for a raw `stat_status_pairs` list given as
(slug, status) pairs. -/
def solvedMapOf (pairs : List (String × Option String)) : List (String × Bool) :=
  buildSolvedMap (pairs.map (fun p => (p.1, statusToSolved p.2)))

/-- `all_problems = list(slug_to_solved_status.keys())` (src/default/main.py
line 130). -/
def problemKeys (pairs : List (String × Option String)) : List String :=
  (solvedMapOf pairs).map Prod.fst

/-- `problem_to_tags` (src/default/main.py lines 133-137): the dict zipping
`all_problems` with the gathered `get_tags` results. -/
def problemToTagsOf (pairs : List (String × Option String))
    (cache : String → CacheResult (List String)) : List (String × List String) :=
  (problemKeys pairs).map (fun slug => (slug, get_tags cache slug))

/-- The lookup `problem_to_tags[slug]` as the tag function fed to the
aggregation loop; every slug the loop looks up is a key of the dict, so the
`[]` default of the embedding is never exercised. -/
def tagsOfFn (pairs : List (String × Option String))
    (cache : String → CacheResult (List String)) : String → List String :=
  fun slug => ((problemToTagsOf pairs cache).lookup slug).getD []

/-- `tag_info_map` as built inside `interpret` for the given raw input and
cache state. -/
def tagInfoMapOf (pairs : List (String × Option String))
    (cache : String → CacheResult (List String)) : List (String × TagInfo) :=
  buildTagInfoMap (solvedMapOf pairs) (tagsOfFn pairs cache)

/-- The sort key `len(solved) / (len(solved) + len(left))` (src/default/main.py
line 161), also recomputed as `solved_ratio` before scaling by 100 (lines
170-172), as an exact rational. -/
def ratio (ti : TagInfo) : ℚ :=
  (ti.solved.length : ℚ) / ((ti.solved.length : ℚ) + (ti.left.length : ℚ))

/-- Stable insertion of one map entry into a list already sorted by ascending
ratio: the new entry goes before the first strictly-or-equally later element,
i.e. before the first element it is `≤`, keeping earlier-listed entries first
among ties, as Python's stable `sorted` does. -/
def insertSorted (a : String × TagInfo) :
    List (String × TagInfo) → List (String × TagInfo)
  | [] => [a]
  | b :: rest =>
      if ratio a.2 ≤ ratio b.2 then a :: b :: rest else b :: insertSorted a rest

/-- `sorted(tag_info_map.items(), key=ratio)` (src/default/main.py lines
159-162): a stable ascending sort by ratio. -/
def sortEntries : List (String × TagInfo) → List (String × TagInfo)
  | [] => []
  | a :: rest => insertSorted a (sortEntries rest)

/-- `random.choice(xs)` given one oracle draw `r`: an arbitrary index into the
list, taken modulo its length. Defined only for the embedding; `interpret`
never evaluates it on an empty list except behind the guard that raises
`IndexError` in Python. -/
def choice (xs : List String) (r : ℕ) : String := xs.getD (r % xs.length) ""

/-- The mutable state of the narrowing loop (src/default/main.py lines
152-174): the candidate pool `to_solve_tasks`, the current pick `to_solve`,
the `tag_progress` output dict (a list in insertion order), and the index of
the next `random.choice` call site in the oracle stream. -/
structure LoopState where
  pool : List String
  pick : String
  progress : List (String × ℚ)
  k : ℕ
deriving DecidableEq

/-- One iteration of the narrowing loop (src/default/main.py lines 159-174):
`to_solve_tasks &= tag_info.left` unconditionally replaces the pool by the
intersection; a new pick is drawn only when the intersection is non-empty;
the tag's ratio, scaled to a percentage, is appended to `tag_progress`. -/
def loopStep (rand : ℕ → ℕ) (st : LoopState) (entry : String × TagInfo) :
    LoopState :=
  let pool2 := st.pool.filter (fun s => decide (s ∈ entry.2.left))
  { pool := pool2
    pick := if pool2.isEmpty then st.pick else choice pool2 (rand st.k)
    progress := st.progress ++ [(entry.1, ratio entry.2 * 100)]
    k := st.k + 1 }

/-- The loop state just before the first tag iteration (src/default/main.py
lines 152-155): the pool is the full key set, the fallback pick is drawn from
it with the first oracle value, and `tag_progress` is empty. -/
def initialStateOf (pairs : List (String × Option String)) (rand : ℕ → ℕ) :
    LoopState :=
  ⟨problemKeys pairs, choice (problemKeys pairs) (rand 0), [], 1⟩

/-- The computational core of `interpret` (src/default/main.py lines
114-174): the recommended slug and the tag-progress table. An empty derived
mapping makes the initial `random.choice` raise `IndexError`, modelled as
`Except.error`; template rendering and the display-name cache reads of lines
177-195 are presentation only and outside the embedding. -/
structure InterpretResult where
  to_solve : String
  tag_progress : List (String × ℚ)
deriving DecidableEq

/-- `interpret` (src/default/main.py lines 114-174). -/
def interpret (pairs : List (String × Option String))
    (cache : String → CacheResult (List String)) (rand : ℕ → ℕ) :
    Except String InterpretResult :=
  if (problemKeys pairs).isEmpty then
    Except.error "IndexError: cannot choose from an empty sequence"
  else
    let final := (sortEntries (tagInfoMapOf pairs cache)).foldl (loopStep rand)
      (initialStateOf pairs rand)
    Except.ok ⟨final.pick, final.progress⟩

/-! Worker: src/worker/main.py -/

/-- A memcache value written by the worker: a string (title or tag name) or a
list of tag slugs. -/
inductive CacheValue where
  | str : String → CacheValue
  | list : List String → CacheValue
deriving DecidableEq

/-- The memcache store: newest write first; a read returns the first entry for
the key, so a later `set` shadows an earlier one (last-write-wins). -/
abbrev Cache := List (String × CacheValue × ℤ)

/-- `memcache.Client().get(key)`. -/
def cget (c : Cache) (k : String) : Option (CacheValue × ℤ) :=
  (c.find? (fun e => e.1 == k)).map (fun e => e.2)

/-- `memcache.Client().set(key, value, time=ttl)`. -/
def cset (c : Cache) (k : String) (v : CacheValue) (ttl : ℤ) : Cache :=
  (k, v, ttl) :: c

/-- `check_cache_tag` (src/worker/main.py lines 73-77). -/
def check_cache_tag (c : Cache) (slug : String) : Bool :=
  (cget c ("tag_" ++ slug ++ "_name")).isSome

/-- The subexpression `all(check_cache_tag(slug) for slug in
memcache.Client().get(f"problem_{slug}_tags"))` of `check_cache_problem`
(src/worker/main.py lines 87-90). The fallthrough arm covers a non-list
value, over which Python's `all` would iterate characters; the result is
discarded either way by the enclosing `is not None`. -/
def tags_all_cached (c : Cache) (slug : String) : Bool :=
  match cget c ("problem_" ++ slug ++ "_tags") with
  | some (CacheValue.list tags, _) => tags.all (fun t => check_cache_tag c t)
  | _ => true

/-- `check_cache_problem` (src/worker/main.py lines 80-93). The third
conjunct embeds the source's `all(...) is not None`: `all` returns a bool,
never `None`, so that conjunct is identically true and the per-tag-name check
has no effect on the result. -/
def check_cache_problem (c : Cache) (slug : String) : Bool :=
  (cget c (slug ++ "_tags")).isSome
    && (cget c ("problem_" ++ slug ++ "_tags")).isSome
    && (some (tags_all_cached c slug)).isSome
    && (cget c ("problem_" ++ slug ++ "_title")).isSome

/-- The provider's answer for one slug (src/worker/main.py lines 46-70): the
question title and its topic tags as (tag slug, tag display name) pairs. -/
structure ProblemDetail where
  title : String
  topicTags : List (String × String)
deriving DecidableEq

/-- The ordered list of cache writes `invalidate_cache` performs on a cache
miss (src/worker/main.py lines 150-173): one tag-name entry per topic tag,
then the two tag-list entries, then the title entry, all with the same
`cache_for` TTL. -/
def populationWrites (detail : ProblemDetail) (slug : String) (cache_for : ℤ) :
    List (String × CacheValue × ℤ) :=
  (detail.topicTags.map
      (fun tag => ("tag_" ++ tag.1 ++ "_name", CacheValue.str tag.2, cache_for)))
    ++ [(slug ++ "_tags", CacheValue.list (detail.topicTags.map Prod.fst),
          cache_for),
        ("problem_" ++ slug ++ "_tags",
          CacheValue.list (detail.topicTags.map Prod.fst), cache_for),
        ("problem_" ++ slug ++ "_title", CacheValue.str detail.title, cache_for)]

/-- Apply a list of writes to the cache in order. -/
def applyWrites (c : Cache) (ws : List (String × CacheValue × ℤ)) : Cache :=
  ws.foldl (fun acc w => cset acc w.1 w.2.1 w.2.2) c

/-- `invalidate_cache` (src/worker/main.py lines 133-177). `jitter` is the
value drawn by `random.randint(-86400, 86400)` on line 144; the result is the
cache after the call, whether the upstream provider was queried, and the log
of writes performed. -/
def invalidate_cache (provider : String → ProblemDetail) (jitter : ℤ)
    (c : Cache) (slug : String) :
    Cache × Bool × List (String × CacheValue × ℤ) :=
  let cache_for : ℤ := 86400 * 30 + jitter
  if check_cache_problem c slug then (c, false, [])
  else
    let ws := populationWrites (provider slug) slug cache_for
    (applyWrites c ws, true, ws)

/-! Generic lemmas about the engine's selection loop. -/

/-- `random.choice` on a non-empty list returns one of its members, whatever
the oracle draw. -/
theorem choice_mem (xs : List String) (r : ℕ) (h : xs ≠ []) : choice xs r ∈ xs := by
  have hlen : 0 < xs.length := List.length_pos.mpr h
  have hlt : r % xs.length < xs.length := Nat.mod_lt _ hlen
  rw [choice, List.getD_eq_getElem?_getD, List.getElem?_eq_getElem hlt]
  exact List.getElem_mem hlt

/-- Running the narrowing loop keeps the pool inside, and the pick a member
of, any superset of the starting pool that contains the starting pick. -/
theorem foldl_loopStep_mem (rand : ℕ → ℕ) (keys : List String) :
    ∀ (entries : List (String × TagInfo)) (st : LoopState),
      (∀ s, s ∈ st.pool → s ∈ keys) → st.pick ∈ keys →
      (∀ s, s ∈ (entries.foldl (loopStep rand) st).pool → s ∈ keys) ∧
        (entries.foldl (loopStep rand) st).pick ∈ keys := by
  intro entries
  induction entries with
  | nil => exact fun st hpool hpick => ⟨hpool, hpick⟩
  | cons e rest ih =>
      intro st hpool hpick
      rw [List.foldl_cons]
      have hsub : ∀ s, s ∈ (loopStep rand st e).pool → s ∈ keys := by
        intro s hs
        rw [loopStep] at hs
        exact hpool s (List.mem_filter.mp hs).1
      refine ih (loopStep rand st e) hsub ?_
      rw [loopStep]
      by_cases hp : (st.pool.filter (fun s => decide (s ∈ e.2.left))).isEmpty
      · simpa [hp] using hpick
      · have hne : st.pool.filter (fun s => decide (s ∈ e.2.left)) ≠ [] :=
          List.isEmpty_eq_false.mp (Bool.not_eq_true _ ▸ eq_false_of_ne_true hp)
        simp only [hp, if_false]
        exact hsub _ (choice_mem _ _ hne)

/-- The loop appends one `(tag, ratio * 100)` entry per processed tag, in
processing order. -/
theorem foldl_loopStep_progress (rand : ℕ → ℕ) :
    ∀ (entries : List (String × TagInfo)) (st : LoopState),
      (entries.foldl (loopStep rand) st).progress =
        st.progress ++ entries.map (fun e => (e.1, ratio e.2 * 100)) := by
  intro entries
  induction entries with
  | nil => intro st; simp
  | cons e rest ih =>
      intro st
      rw [List.foldl_cons, ih, List.map_cons]
      rw [loopStep]
      simp [List.append_assoc]

/-- Once the pool is empty it stays empty and the pick never changes, however
many tags remain. -/
theorem foldl_loopStep_of_empty (rand : ℕ → ℕ) :
    ∀ (entries : List (String × TagInfo)) (st : LoopState), st.pool = [] →
      (entries.foldl (loopStep rand) st).pool = [] ∧
        (entries.foldl (loopStep rand) st).pick = st.pick := by
  intro entries
  induction entries with
  | nil => exact fun st h => ⟨h, rfl⟩
  | cons e rest ih =>
      intro st h
      rw [List.foldl_cons]
      have hstep : (loopStep rand st e).pool = [] ∧ (loopStep rand st e).pick = st.pick := by
        rw [loopStep, h]
        exact ⟨rfl, rfl⟩
      obtain ⟨h1, h2⟩ := ih (loopStep rand st e) hstep.1
      exact ⟨h1, h2.trans hstep.2⟩

/-- Membership in a stable insertion: exactly the new element plus the old
ones. -/
theorem mem_insertSorted (a y : String × TagInfo) :
    ∀ l : List (String × TagInfo), y ∈ insertSorted a l ↔ y = a ∨ y ∈ l := by
  intro l
  induction l with
  | nil => simp [insertSorted]
  | cons b rest ih =>
      rw [insertSorted]
      by_cases hab : ratio a.2 ≤ ratio b.2
      · simp [hab]
      · simp only [hab, if_false, List.mem_cons, ih]
        tauto

/-- Inserting into a ratio-sorted list keeps it ratio-sorted. -/
theorem pairwise_insertSorted (a : String × TagInfo) :
    ∀ l : List (String × TagInfo),
      l.Pairwise (fun x y => ratio x.2 ≤ ratio y.2) →
      (insertSorted a l).Pairwise (fun x y => ratio x.2 ≤ ratio y.2) := by
  intro l
  induction l with
  | nil => simp [insertSorted]
  | cons b rest ih =>
      intro h
      obtain ⟨hb, hrest⟩ := List.pairwise_cons.mp h
      rw [insertSorted]
      by_cases hab : ratio a.2 ≤ ratio b.2
      · rw [if_pos hab]
        refine List.pairwise_cons.mpr ⟨?_, h⟩
        intro y hy
        rcases List.mem_cons.mp hy with hyb | hyr
        · exact hyb ▸ hab
        · exact hab.trans (hb y hyr)
      · rw [if_neg hab]
        refine List.pairwise_cons.mpr ⟨?_, ih hrest⟩
        intro y hy
        rcases (mem_insertSorted a y rest).mp hy with hya | hyr
        · exact hya ▸ le_of_not_le hab
        · exact hb y hyr

/-- The sorted tag list is in non-decreasing ratio order. -/
theorem pairwise_sortEntries :
    ∀ l : List (String × TagInfo),
      (sortEntries l).Pairwise (fun x y => ratio x.2 ≤ ratio y.2) := by
  intro l
  induction l with
  | nil => simp [sortEntries]
  | cons a rest ih => exact pairwise_insertSorted a (sortEntries rest) ih

/-- A tag ratio is never negative. -/
theorem ratio_nonneg (ti : TagInfo) : 0 ≤ ratio ti := by
  rw [ratio]
  positivity

/-- A tag ratio never exceeds one (the zero-denominator case is the `ℚ`
convention `x / 0 = 0`; the invariant of `tagInfoMap_invariant` shows it is
never exercised on a built aggregation map). -/
theorem ratio_le_one (ti : TagInfo) : ratio ti ≤ 1 := by
  rw [ratio]
  rcases eq_or_lt_of_le
      (by positivity : (0 : ℚ) ≤ (ti.solved.length : ℚ) + (ti.left.length : ℚ)) with h | h
  · rw [← h, div_zero]
    norm_num
  · rw [div_le_one h]
    have : (0 : ℚ) ≤ (ti.left.length : ℚ) := by positivity
    linarith

/-! Association-list lemmas for the Python-dict embeddings. -/

/-- `List.lookup` on a cons cell, in `if` form. -/
theorem lookup_pair_cons {β : Type} (a k : String) (v : β) (es : List (String × β)) :
    List.lookup a ((k, v) :: es) = if a = k then some v else List.lookup a es := by
  rw [List.lookup_cons]
  by_cases h : a = k
  · simp [h]
  · simp [h, beq_eq_false_iff_ne.mpr h]

/-- With duplicate-free keys, membership determines the lookup result. -/
theorem lookup_eq_some_of_mem {β : Type} :
    ∀ (m : List (String × β)), (m.map Prod.fst).Nodup →
      ∀ k v, (k, v) ∈ m → List.lookup k m = some v := by
  intro m
  induction m with
  | nil => intro _ k v h; cases h
  | cons p rest ih =>
      intro hnd k v h
      rw [List.map_cons, List.nodup_cons] at hnd
      obtain ⟨k2, v2⟩ := p
      rcases List.mem_cons.mp h with he | hm
      · cases he
        rw [lookup_pair_cons, if_pos rfl]
      · rw [lookup_pair_cons]
        have hkne : k ≠ k2 := by
          intro hkk
          subst hkk
          exact hnd.1 (List.mem_map.mpr ⟨(k, v), hm, rfl⟩)
        rw [if_neg hkne]
        exact ih hnd.2 k v hm

/-- A successful lookup exhibits a member of the association list. -/
theorem mem_of_lookup_eq_some {β : Type} :
    ∀ (m : List (String × β)) (k : String) (v : β),
      List.lookup k m = some v → (k, v) ∈ m := by
  intro m
  induction m with
  | nil => intro k v h; simp [List.lookup_nil] at h
  | cons p rest ih =>
      intro k v h
      obtain ⟨k2, v2⟩ := p
      rw [lookup_pair_cons] at h
      by_cases hk : k = k2
      · rw [if_pos hk] at h
        exact List.mem_cons.mpr (Or.inl (by rw [hk, Option.some_inj.mp h]))
      · rw [if_neg hk] at h
        exact List.mem_cons.mpr (Or.inr (ih k v h))

/-- Lookup in a list tabulating a function over a key list. -/
theorem lookup_map_pair {β : Type} (f : String → β) :
    ∀ (l : List String) (k : String),
      List.lookup k (l.map (fun s => (s, f s))) =
        if k ∈ l then some (f k) else none := by
  intro l
  induction l with
  | nil => intro k; simp
  | cons s rest ih =>
      intro k
      rw [List.map_cons, lookup_pair_cons]
      by_cases hk : k = s
      · simp [hk]
      · simp [hk, ih k]

/-- Lookup after the overwrite branch of `dictInsert`. -/
theorem lookup_map_overwrite (k k2 : String) (v : Bool) :
    ∀ m : List (String × Bool),
      List.lookup k2 (m.map (fun p => if p.1 == k then (k, v) else p)) =
        if k2 = k then (if m.any (fun p => p.1 == k) then some v else none)
        else List.lookup k2 m := by
  intro m
  induction m with
  | nil => by_cases hk : k2 = k <;> simp [hk]
  | cons p rest ih =>
      obtain ⟨k3, v3⟩ := p
      rw [List.map_cons, List.any_cons]
      by_cases hp : k3 = k
      · have hb : ((k3, v3).1 == k) = true := beq_iff_eq.mpr hp
        rw [if_pos hb, hb, Bool.true_or, lookup_pair_cons]
        by_cases hk : k2 = k
        · simp [hk]
        · have hk23 : k2 ≠ k3 := fun h => hk (hp ▸ h)
          rw [if_neg hk, ih, if_neg hk, if_neg hk, lookup_pair_cons, if_neg hk23]
      · have hb : ((k3, v3).1 == k) = false := beq_eq_false_iff_ne.mpr hp
        rw [if_neg (by simp [hb]), hb, Bool.false_or, lookup_pair_cons, lookup_pair_cons]
        by_cases hk2 : k2 = k3
        · have hk2k : k2 ≠ k := fun h => hp (hk2.symm.trans h)
          rw [if_pos hk2, if_neg hk2k, if_pos hk2]
        · rw [if_neg hk2, if_neg hk2, ih]

/-- Lookup in an association list extended on the right with a fresh key. -/
theorem lookup_append_single {β : Type} (k k2 : String) (v : β) :
    ∀ m : List (String × β),
      List.lookup k2 (m ++ [(k, v)]) =
        (List.lookup k2 m).or (if k2 = k then some v else none) := by
  intro m
  induction m with
  | nil => simp [lookup_pair_cons]
  | cons p rest ih =>
      obtain ⟨k3, v3⟩ := p
      rw [List.cons_append, lookup_pair_cons, lookup_pair_cons]
      by_cases hk : k2 = k3
      · simp [hk]
      · rw [if_neg hk, if_neg hk, ih]

/-- The dict-insertion semantics of `dictInsert`: the inserted key maps to the
new value, all other keys are untouched. -/
theorem lookup_dictInsert (m : List (String × Bool)) (k : String) (v : Bool)
    (k2 : String) :
    List.lookup k2 (dictInsert m k v) =
      if k2 = k then some v else List.lookup k2 m := by
  rw [dictInsert]
  by_cases hany : m.any (fun p => p.1 == k)
  · rw [if_pos hany, lookup_map_overwrite]
    by_cases hk : k2 = k
    · simp [hk, hany]
    · simp [hk]
  · rw [if_neg hany, lookup_append_single]
    by_cases hk : k2 = k
    · have hnone : List.lookup k2 m = none := by
        have hnot : k ∉ m.map Prod.fst := by
          intro hmem
          obtain ⟨p, hpm, hpk⟩ := List.mem_map.mp hmem
          exact hany (List.any_eq_true.mpr ⟨p, hpm, by simp [hpk]⟩)
        cases hcase : List.lookup k2 m with
        | none => rfl
        | some b =>
            exact absurd
              (List.mem_map.mpr ⟨(k2, b), mem_of_lookup_eq_some m k2 b hcase, rfl⟩)
              (hk ▸ hnot)
      subst hk
      simp [hnone]
    · rw [if_neg hk, if_neg hk]
      cases List.lookup k2 m <;> rfl

/-- The keys of `dictInsert`: unchanged on overwrite, extended on the right
for a fresh key. -/
theorem keys_dictInsert (m : List (String × Bool)) (k : String) (v : Bool) :
    (dictInsert m k v).map Prod.fst =
      if m.any (fun p => p.1 == k) then m.map Prod.fst
      else m.map Prod.fst ++ [k] := by
  rw [dictInsert]
  by_cases hany : m.any (fun p => p.1 == k)
  · rw [if_pos hany, if_pos hany, List.map_map]
    refine List.map_congr_left ?_
    intro p _
    by_cases hp : p.1 = k
    · simp [Function.comp, hp]
    · simp [Function.comp, beq_eq_false_iff_ne.mpr hp]
  · rw [if_neg hany, if_neg hany, List.map_append]
    rfl

/-- A false `any` over the key predicate means the key is absent. -/
theorem not_mem_keys_of_any_eq_false {β : Type} (m : List (String × β))
    (k : String) (h : m.any (fun p => p.1 == k) = false) :
    k ∉ m.map Prod.fst := by
  intro hmem
  obtain ⟨p, hpm, hpk⟩ := List.mem_map.mp hmem
  have := (List.any_eq_false.mp h) p hpm
  simp [hpk] at this

/-! Lemmas about the derived solved-status dict. -/

/-- The dict built by the `slug_to_solved_status` comprehension has
duplicate-free keys. -/
theorem nodup_keys_buildSolvedMap (pairs : List (String × Bool)) :
    ((buildSolvedMap pairs).map Prod.fst).Nodup := by
  rw [buildSolvedMap]
  suffices h : ∀ (l m : List (String × Bool)), (m.map Prod.fst).Nodup →
      ((l.foldl (fun m2 p => dictInsert m2 p.1 p.2) m).map Prod.fst).Nodup by
    exact h pairs [] (by simp)
  intro l
  induction l with
  | nil => intro m hm; simpa using hm
  | cons p rest ih =>
      intro m hm
      rw [List.foldl_cons]
      refine ih _ ?_
      rw [keys_dictInsert]
      by_cases hany : m.any (fun q => q.1 == p.1)
      · rwa [if_pos hany]
      · rw [if_neg hany, List.nodup_append]
        rw [Bool.not_eq_true] at hany
        refine ⟨hm, List.nodup_singleton _, ?_⟩
        intro a ha hb
        rw [List.mem_singleton] at hb
        exact not_mem_keys_of_any_eq_false m p.1 hany (hb ▸ ha)

/-- The value stored for a slug is the status of its last occurrence in the
input, in input order. -/
theorem lookup_buildSolvedMap (k : String) :
    ∀ pairs : List (String × Bool),
      List.lookup k (buildSolvedMap pairs) =
        ((pairs.filter (fun p => p.1 == k)).getLast?).map Prod.snd := by
  intro pairs
  induction pairs using List.reverseRecOn with
  | nil => simp [buildSolvedMap]
  | append_singleton l p ih =>
      rw [buildSolvedMap, List.foldl_append, List.foldl_cons, List.foldl_nil,
        ← buildSolvedMap, lookup_dictInsert, List.filter_append, List.getLast?_append]
      by_cases hk : k = p.1
      · have hb : (p.1 == k) = true := beq_iff_eq.mpr hk.symm
        simp [List.filter_cons, hb, hk]
      · have hb : (p.1 == k) = false := beq_eq_false_iff_ne.mpr (fun h => hk h.symm)
        simp [List.filter_cons, hb, hk, ih]

/-- Every key of the derived dict is a slug occurring in the input. -/
theorem mem_keys_buildSolvedMap (pairs : List (String × Bool)) (k : String)
    (h : k ∈ (buildSolvedMap pairs).map Prod.fst) : k ∈ pairs.map Prod.fst := by
  rw [buildSolvedMap] at h
  suffices hgen : ∀ (l m : List (String × Bool)),
      k ∈ ((l.foldl (fun m2 p => dictInsert m2 p.1 p.2) m).map Prod.fst) →
      k ∈ m.map Prod.fst ∨ k ∈ l.map Prod.fst by
    rcases hgen pairs [] h with hc | hc
    · simp at hc
    · exact hc
  intro l
  induction l with
  | nil => intro m hm; exact Or.inl hm
  | cons p rest ih =>
      intro m hm
      rw [List.foldl_cons] at hm
      rcases ih _ hm with hc | hc
      · rw [keys_dictInsert] at hc
        by_cases hany : m.any (fun q => q.1 == p.1)
        · rw [if_pos hany] at hc
          exact Or.inl hc
        · rw [if_neg hany] at hc
          rcases List.mem_append.mp hc with h1 | h1
          · exact Or.inl h1
          · rw [List.mem_singleton] at h1
            exact Or.inr (List.mem_cons.mpr (Or.inl h1))
      · exact Or.inr (List.mem_cons.mpr (Or.inr hc))

/-- The candidate key set is drawn from the raw input slugs. -/
theorem problemKeys_subset (pairs : List (String × Option String)) (k : String)
    (h : k ∈ problemKeys pairs) : k ∈ pairs.map Prod.fst := by
  rw [problemKeys, solvedMapOf] at h
  have := mem_keys_buildSolvedMap _ k h
  rw [List.map_map] at this
  simpa using this

/-- The per-slug tag function used by the aggregation: the gathered
`get_tags` result on the dict's keys, `[]` off them. -/
theorem tagsOfFn_eq (pairs : List (String × Option String))
    (cache : String → CacheResult (List String)) (slug : String) :
    tagsOfFn pairs cache slug =
      if slug ∈ problemKeys pairs then get_tags cache slug else [] := by
  rw [tagsOfFn, problemToTagsOf, lookup_map_pair]
  by_cases h : slug ∈ problemKeys pairs <;> simp [h]

/-! Lemmas about the tag aggregation map. -/

/-- Adding the same slug to the same set twice is a no-op (Python set
semantics). -/
theorem insertSlug_idem (ti : TagInfo) (slug : String) (b : Bool) :
    insertSlug (insertSlug ti slug b) slug b = insertSlug ti slug b := by
  cases b with
  | true =>
      by_cases hmem : slug ∈ ti.solved
      · simp [insertSlug, hmem]
      · simp [insertSlug, hmem]
  | false =>
      by_cases hmem : slug ∈ ti.left
      · simp [insertSlug, hmem]
      · simp [insertSlug, hmem]

/-- Effect of one `updateTagMap` call on every lookup. -/
theorem lookup_updateTagMap (tag slug : String) (b : Bool) (t2 : String) :
    ∀ m : List (String × TagInfo),
      List.lookup t2 (updateTagMap m tag slug b) =
        if t2 = tag then
          some (insertSlug ((List.lookup tag m).getD ⟨[], []⟩) slug b)
        else List.lookup t2 m := by
  intro m
  induction m with
  | nil =>
      rw [updateTagMap]
      by_cases ht : t2 = tag <;> simp [ht, lookup_pair_cons]
  | cons p rest ih =>
      obtain ⟨t, ti⟩ := p
      rw [updateTagMap]
      by_cases htt : t = tag
      · rw [if_pos htt]
        subst htt
        by_cases ht2 : t2 = t
        · subst ht2
          simp [lookup_pair_cons]
        · rw [lookup_pair_cons, if_neg ht2, if_neg ht2, lookup_pair_cons, if_neg ht2]
      · rw [if_neg htt]
        have htagt : tag ≠ t := fun h => htt h.symm
        rw [lookup_pair_cons, lookup_pair_cons, ih, lookup_pair_cons, if_neg htagt]
        by_cases ht2 : t2 = t
        · have ht2tag : t2 ≠ tag := fun h => htt (ht2.symm.trans h)
          rw [if_pos ht2, if_neg ht2tag, if_pos ht2]
        · rw [if_neg ht2]
          by_cases h3 : t2 = tag
          · rw [if_pos h3, if_pos h3]
          · rw [if_neg h3, if_neg h3, if_neg ht2]

/-- Keys of `updateTagMap`: unchanged if the tag exists, else appended. -/
theorem keys_updateTagMap (tag slug : String) (b : Bool) :
    ∀ m : List (String × TagInfo),
      (updateTagMap m tag slug b).map Prod.fst =
        if tag ∈ m.map Prod.fst then m.map Prod.fst
        else m.map Prod.fst ++ [tag] := by
  intro m
  induction m with
  | nil => simp [updateTagMap]
  | cons p rest ih =>
      obtain ⟨t, ti⟩ := p
      rw [updateTagMap]
      by_cases htt : t = tag
      · subst htt
        simp [List.map_cons]
      · rw [if_neg htt, List.map_cons, List.map_cons, ih]
        by_cases hmem : tag ∈ rest.map Prod.fst
        · rw [if_pos hmem, if_pos (List.mem_cons.mpr (Or.inr hmem))]
        · rw [if_neg hmem, if_neg (fun hc => by
            rcases List.mem_cons.mp hc with h1 | h2
            · exact htt h1.symm
            · exact hmem h2)]
          simp

/-- The aggregation map has duplicate-free tag keys. -/
theorem nodup_keys_buildTagInfoMap (pairs : List (String × Bool))
    (tagsOf : String → List String) :
    ((buildTagInfoMap pairs tagsOf).map Prod.fst).Nodup := by
  rw [buildTagInfoMap]
  have hinner : ∀ (tags : List String) (slug : String) (b : Bool)
      (m : List (String × TagInfo)), (m.map Prod.fst).Nodup →
      ((tags.foldl (fun m2 tag => updateTagMap m2 tag slug b) m).map Prod.fst).Nodup := by
    intro tags slug b
    induction tags with
    | nil => intro m hm; simpa using hm
    | cons tag rest ih =>
        intro m hm
        rw [List.foldl_cons]
        refine ih _ ?_
        rw [keys_updateTagMap]
        by_cases hmem : tag ∈ m.map Prod.fst
        · rwa [if_pos hmem]
        · rw [if_neg hmem, List.nodup_append]
          refine ⟨hm, List.nodup_singleton _, ?_⟩
          intro a ha hb
          rw [List.mem_singleton] at hb
          exact hmem (hb ▸ ha)
  suffices h : ∀ (l : List (String × Bool)) (m : List (String × TagInfo)),
      (m.map Prod.fst).Nodup →
      ((l.foldl (fun m2 p =>
          (tagsOf p.1).foldl (fun m3 tag => updateTagMap m3 tag p.1 p.2) m2) m).map
        Prod.fst).Nodup by
    exact h pairs [] (by simp)
  intro l
  induction l with
  | nil => intro m hm; simpa using hm
  | cons p rest ih =>
      intro m hm
      rw [List.foldl_cons]
      exact ih _ (hinner _ _ _ _ hm)

/-- Lookup after the inner tag loop of the aggregation: the slug is inserted
once into the looked-up tag's entry for every tag in its list, repeated
occurrences collapsing by set idempotence. -/
theorem lookup_innerFold (slug : String) (b : Bool) (t2 : String) :
    ∀ (tags : List String) (m : List (String × TagInfo)),
      List.lookup t2 (tags.foldl (fun m2 tag => updateTagMap m2 tag slug b) m) =
        if t2 ∈ tags then
          some (insertSlug ((List.lookup t2 m).getD ⟨[], []⟩) slug b)
        else List.lookup t2 m := by
  intro tags
  induction tags with
  | nil => intro m; simp
  | cons tag rest ih =>
      intro m
      rw [List.foldl_cons, ih, lookup_updateTagMap]
      by_cases h1 : t2 ∈ rest
      · rw [if_pos h1, if_pos (List.mem_cons.mpr (Or.inr h1))]
        by_cases h2 : t2 = tag
        · rw [if_pos h2, h2, Option.getD_some, insertSlug_idem]
        · rw [if_neg h2]
      · rw [if_neg h1]
        by_cases h2 : t2 = tag
        · rw [if_pos h2, if_pos (List.mem_cons.mpr (Or.inl h2)), h2]
        · rw [if_neg h2, if_neg (fun hc => by
            rcases List.mem_cons.mp hc with hh | hh
            · exact h2 hh
            · exact h1 hh)]

/-- Specification-side characterization of one `TagInfo` set: the slugs of
`pairs` carrying solved-status `b` whose tag list contains `tag`, in input
order. -/
def slugsWith (pairs : List (String × Bool)) (tagsOf : String → List String)
    (tag : String) (b : Bool) : List String :=
  (pairs.filter (fun p => p.2 == b && decide (tag ∈ tagsOf p.1))).map Prod.fst

/-- Membership in `slugsWith`. -/
theorem mem_slugsWith (pairs : List (String × Bool)) (tagsOf : String → List String)
    (tag : String) (b : Bool) (x : String) :
    x ∈ slugsWith pairs tagsOf tag b ↔ ((x, b) ∈ pairs ∧ tag ∈ tagsOf x) := by
  rw [slugsWith]
  constructor
  · intro h
    obtain ⟨p, hp, hpx⟩ := List.mem_map.mp h
    obtain ⟨hpm, hcond⟩ := List.mem_filter.mp hp
    rw [Bool.and_eq_true] at hcond
    obtain ⟨p1, p2⟩ := p
    cases hpx
    have hb : p2 = b := beq_iff_eq.mp hcond.1
    subst hb
    exact ⟨hpm, of_decide_eq_true hcond.2⟩
  · rintro ⟨hmem, htag⟩
    exact List.mem_map.mpr ⟨(x, b), List.mem_filter.mpr ⟨hmem, by simp [htag]⟩, rfl⟩

/-- `slugsWith` keeps a sublist of the input keys, hence inherits their
freedom from duplicates. -/
theorem nodup_slugsWith (pairs : List (String × Bool)) (tagsOf : String → List String)
    (tag : String) (b : Bool) (hnd : (pairs.map Prod.fst).Nodup) :
    (slugsWith pairs tagsOf tag b).Nodup := by
  rw [slugsWith]
  exact ((List.filter_sublist pairs).map Prod.fst).nodup hnd

/-- `slugsWith` over an input extended by one pair. -/
theorem slugsWith_append_single (pairs : List (String × Bool))
    (tagsOf : String → List String) (tag : String) (b : Bool) (p : String × Bool) :
    slugsWith (pairs ++ [p]) tagsOf tag b =
      slugsWith pairs tagsOf tag b ++
        (if p.2 == b && decide (tag ∈ tagsOf p.1) then [p.1] else []) := by
  rw [slugsWith, slugsWith, List.filter_append, List.map_append, List.filter_cons]
  by_cases h : (p.2 == b && decide (tag ∈ tagsOf p.1)) = true
  · rw [if_pos h, if_pos h]
    rfl
  · rw [if_neg h, if_neg h]
    rfl

/-- When no pair of the input references the tag, both characterizing lists
are empty. -/
theorem slugsWith_eq_nil (pairs : List (String × Bool)) (tagsOf : String → List String)
    (tag : String) (b : Bool)
    (h : pairs.any (fun p => decide (tag ∈ tagsOf p.1)) = false) :
    slugsWith pairs tagsOf tag b = [] := by
  rw [slugsWith, List.filter_eq_nil_iff.mpr, List.map_nil]
  intro p hp
  have := (List.any_eq_false.mp h) p hp
  simp only [Bool.and_eq_true, not_and]
  intro _
  exact this

/-- Closed form of the aggregation map: under duplicate-free input keys, each
tag key maps to exactly the pairs of the input that reference it, split by
solved status; a tag absent from every tag list has no entry. -/
theorem lookup_buildTagInfoMap (tagsOf : String → List String) (tag : String) :
    ∀ pairs : List (String × Bool), (pairs.map Prod.fst).Nodup →
      List.lookup tag (buildTagInfoMap pairs tagsOf) =
        if pairs.any (fun p => decide (tag ∈ tagsOf p.1)) then
          some ⟨slugsWith pairs tagsOf tag true, slugsWith pairs tagsOf tag false⟩
        else none := by
  intro pairs
  induction pairs using List.reverseRecOn with
  | nil => intro _; simp [buildTagInfoMap, slugsWith]
  | append_singleton l p ih =>
      intro hnd
      rw [List.map_append, List.nodup_append] at hnd
      obtain ⟨hnd_l, _, hdisj⟩ := hnd
      have hfresh : p.1 ∉ l.map Prod.fst := by
        intro hc
        exact hdisj hc (by simp)
      rw [buildTagInfoMap, List.foldl_append, List.foldl_cons, List.foldl_nil,
        ← buildTagInfoMap, lookup_innerFold, List.any_append, List.any_cons,
        List.any_nil, Bool.or_false, slugsWith_append_single, slugsWith_append_single,
        ih hnd_l]
      by_cases htag : tag ∈ tagsOf p.1
      · rw [if_pos htag]
        have hd : decide (tag ∈ tagsOf p.1) = true := decide_eq_true htag
        rw [hd, Bool.or_true, if_pos rfl]
        by_cases hanyl : l.any (fun q => decide (tag ∈ tagsOf q.1))
        · rw [if_pos hanyl, Option.getD_some]
          have hsolv : p.1 ∉ slugsWith l tagsOf tag true := by
            intro hc
            exact hfresh (List.mem_map.mpr ⟨(p.1, true), ((mem_slugsWith _ _ _ _ _).mp hc).1, rfl⟩)
          have hleft : p.1 ∉ slugsWith l tagsOf tag false := by
            intro hc
            exact hfresh (List.mem_map.mpr ⟨(p.1, false), ((mem_slugsWith _ _ _ _ _).mp hc).1, rfl⟩)
          cases hb : p.2 with
          | true =>
              rw [insertSlug]
              simp only [if_true]
              rw [if_neg hsolv]
              simp [hb, hd]
          | false =>
              rw [insertSlug]
              simp only [Bool.false_eq_true, if_false]
              rw [if_neg hleft]
              simp [hb, hd]
        · rw [if_neg hanyl]
          rw [Bool.not_eq_true] at hanyl
          rw [slugsWith_eq_nil l tagsOf tag true hanyl,
            slugsWith_eq_nil l tagsOf tag false hanyl]
          cases hb : p.2 with
          | true => simp [insertSlug, hb, hd]
          | false => simp [insertSlug, hb, hd]
      · rw [if_neg htag]
        have hd : decide (tag ∈ tagsOf p.1) = false := decide_eq_false htag
        rw [hd, Bool.or_false]
        simp

/-- An entry of the aggregation map built inside `interpret` is exactly
characterized by the closed form. -/
theorem mem_tagInfoMap_eq (pairs : List (String × Bool))
    (tagsOf : String → List String) (t : String) (ti : TagInfo)
    (hnd : (pairs.map Prod.fst).Nodup)
    (h : (t, ti) ∈ buildTagInfoMap pairs tagsOf) :
    ti = ⟨slugsWith pairs tagsOf t true, slugsWith pairs tagsOf t false⟩ ∧
      pairs.any (fun p => decide (t ∈ tagsOf p.1)) = true := by
  have hlook := lookup_eq_some_of_mem _ (nodup_keys_buildTagInfoMap pairs tagsOf) t ti h
  rw [lookup_buildTagInfoMap tagsOf t pairs hnd] at hlook
  by_cases hany : pairs.any (fun p => decide (t ∈ tagsOf p.1))
  · rw [if_pos hany] at hlook
    exact ⟨(Option.some_inj.mp hlook).symm, hany⟩
  · rw [if_neg hany] at hlook
    cases hlook

/-! Claim theorems for the Selection Engine. -/

/-- C3: for every slug-to-solved mapping given to the Selection Engine, every
cache state and every random draw, a successfully returned recommendation is a
member of the derived mapping's key set, hence a slug of the original input. -/
theorem interpret_pick_mem (pairs : List (String × Option String))
    (cache : String → CacheResult (List String)) (rand : ℕ → ℕ)
    (res : InterpretResult) (h : interpret pairs cache rand = Except.ok res) :
    res.to_solve ∈ problemKeys pairs ∧ res.to_solve ∈ pairs.map Prod.fst := by
  rw [interpret] at h
  by_cases hempty : (problemKeys pairs).isEmpty
  · rw [if_pos hempty] at h
    cases h
  · rw [if_neg hempty] at h
    have hne : problemKeys pairs ≠ [] := by
      rw [Bool.not_eq_true] at hempty
      exact List.isEmpty_eq_false.mp hempty
    simp only [Except.ok.injEq] at h
    have hmem := (foldl_loopStep_mem rand (problemKeys pairs)
      (sortEntries (tagInfoMapOf pairs cache)) (initialStateOf pairs rand)
      (fun s hs => hs) (choice_mem _ _ hne)).2
    have hpick : res.to_solve =
        ((sortEntries (tagInfoMapOf pairs cache)).foldl (loopStep rand)
          (initialStateOf pairs rand)).pick := by
      rw [← h]
    rw [hpick]
    exact ⟨hmem, problemKeys_subset pairs _ hmem⟩

/-- C4: the tag-progress table of a successful recommendation lists ratios in
non-decreasing order, and each recorded percentage lies in [0, 100]. -/
theorem interpret_progress_sorted (pairs : List (String × Option String))
    (cache : String → CacheResult (List String)) (rand : ℕ → ℕ)
    (res : InterpretResult) (h : interpret pairs cache rand = Except.ok res) :
    res.tag_progress.Pairwise (fun a b => a.2 ≤ b.2) ∧
      ∀ q ∈ res.tag_progress, 0 ≤ q.2 ∧ q.2 ≤ 100 := by
  rw [interpret] at h
  by_cases hempty : (problemKeys pairs).isEmpty
  · rw [if_pos hempty] at h
    cases h
  · rw [if_neg hempty] at h
    simp only [Except.ok.injEq] at h
    have hprog : res.tag_progress =
        (sortEntries (tagInfoMapOf pairs cache)).map
          (fun e => (e.1, ratio e.2 * 100)) := by
      rw [← h]
      show ((sortEntries (tagInfoMapOf pairs cache)).foldl (loopStep rand)
        (initialStateOf pairs rand)).progress = _
      rw [foldl_loopStep_progress]
      rfl
    rw [hprog]
    constructor
    · rw [List.pairwise_map]
      refine (pairwise_sortEntries (tagInfoMapOf pairs cache)).imp ?_
      intro a b hab
      exact mul_le_mul_of_nonneg_right hab (by norm_num)
    · intro q hq
      obtain ⟨e, _, he⟩ := List.mem_map.mp hq
      have h0 := ratio_nonneg e.2
      have h1 := ratio_le_one e.2
      constructor
      · rw [← he]
        positivity
      · rw [← he]
        show ratio e.2 * 100 ≤ 100
        nlinarith

/-- C5: an input whose derived slug-to-solved mapping is empty makes the
selection computation fail: the initial `random.choice` raises, surfaced to
the caller as an error rather than a recommendation. -/
theorem interpret_empty_input (pairs : List (String × Option String))
    (cache : String → CacheResult (List String)) (rand : ℕ → ℕ)
    (h : solvedMapOf pairs = []) :
    interpret pairs cache rand =
      Except.error "IndexError: cannot choose from an empty sequence" := by
  rw [interpret, if_pos]
  rw [problemKeys, h]
  rfl

/-- C7: a cache read that raises or misses is absorbed by `get_tags` as the
empty tag list; the per-slug tag mapping is still defined for the slug, the
slug still enters the initial candidate pool, and it joins no tag group of
the aggregation map. -/
theorem get_tags_degraded (pairs : List (String × Option String))
    (cache : String → CacheResult (List String)) (rand : ℕ → ℕ) (slug : String)
    (h : cache (slug ++ "_tags") = CacheResult.err ∨
      cache (slug ++ "_tags") = CacheResult.absent) :
    get_tags cache slug = [] ∧
      (slug ∈ problemKeys pairs →
        List.lookup slug (problemToTagsOf pairs cache) = some []) ∧
      (slug ∈ problemKeys pairs → slug ∈ (initialStateOf pairs rand).pool) ∧
      (∀ t ti, (t, ti) ∈ tagInfoMapOf pairs cache →
        slug ∉ ti.solved ∧ slug ∉ ti.left) := by
  have hget : get_tags cache slug = [] := by
    rcases h with h | h <;> rw [get_tags, h]
  have htagsOf : tagsOfFn pairs cache slug = [] := by
    rw [tagsOfFn_eq]
    by_cases hmem : slug ∈ problemKeys pairs
    · rw [if_pos hmem, hget]
    · rw [if_neg hmem]
  refine ⟨hget, ?_, ?_, ?_⟩
  · intro hmem
    rw [problemToTagsOf, lookup_map_pair, if_pos hmem, hget]
  · intro hmem
    exact hmem
  · intro t ti hmem
    rw [tagInfoMapOf] at hmem
    have hnd : ((solvedMapOf pairs).map Prod.fst).Nodup := by
      rw [solvedMapOf]
      exact nodup_keys_buildSolvedMap _
    obtain ⟨hti, _⟩ := mem_tagInfoMap_eq _ _ _ _ hnd hmem
    subst hti
    constructor
    · intro hc
      obtain ⟨_, htag⟩ := (mem_slugsWith _ _ _ _ _).mp hc
      rw [htagsOf] at htag
      cases htag
    · intro hc
      obtain ⟨_, htag⟩ := (mem_slugsWith _ _ _ _ _).mp hc
      rw [htagsOf] at htag
      cases htag

/-- C8: every tag entry of the aggregation map has disjoint solved/left sets
whose sizes sum to at least one, so the ratio denominator is nonzero. -/
theorem tagInfoMap_invariant (pairs : List (String × Option String))
    (cache : String → CacheResult (List String)) (t : String) (ti : TagInfo)
    (h : (t, ti) ∈ tagInfoMapOf pairs cache) :
    (∀ s, s ∈ ti.solved → s ∉ ti.left) ∧
      1 ≤ ti.solved.length + ti.left.length ∧
      ((ti.solved.length : ℚ) + (ti.left.length : ℚ)) ≠ 0 := by
  rw [tagInfoMapOf] at h
  have hnd : ((solvedMapOf pairs).map Prod.fst).Nodup := by
    rw [solvedMapOf]
    exact nodup_keys_buildSolvedMap _
  obtain ⟨hti, hany⟩ := mem_tagInfoMap_eq _ _ _ _ hnd h
  subst hti
  have hdisj : ∀ s,
      s ∈ slugsWith (solvedMapOf pairs) (tagsOfFn pairs cache) t true →
      s ∉ slugsWith (solvedMapOf pairs) (tagsOfFn pairs cache) t false := by
    intro s hs hl
    obtain ⟨hps, _⟩ := (mem_slugsWith _ _ _ _ _).mp hs
    obtain ⟨hpl, _⟩ := (mem_slugsWith _ _ _ _ _).mp hl
    have h1 := lookup_eq_some_of_mem _ hnd s true hps
    have h2 := lookup_eq_some_of_mem _ hnd s false hpl
    rw [h1] at h2
    cases h2
  have hsum : 1 ≤
      (slugsWith (solvedMapOf pairs) (tagsOfFn pairs cache) t true).length +
        (slugsWith (solvedMapOf pairs) (tagsOfFn pairs cache) t false).length := by
    obtain ⟨p, hp, hdec⟩ := List.any_eq_true.mp hany
    have htag : t ∈ tagsOfFn pairs cache p.1 := of_decide_eq_true hdec
    have hmem : p.1 ∈ slugsWith (solvedMapOf pairs) (tagsOfFn pairs cache) t p.2 :=
      (mem_slugsWith _ _ _ _ _).mpr ⟨by simpa using hp, htag⟩
    cases hb : p.2 with
    | true =>
        rw [hb] at hmem
        have := List.length_pos.mpr (List.ne_nil_of_mem hmem)
        omega
    | false =>
        rw [hb] at hmem
        have := List.length_pos.mpr (List.ne_nil_of_mem hmem)
        omega
  refine ⟨hdisj, hsum, ?_⟩
  have hpos : (0 : ℚ) <
      ((slugsWith (solvedMapOf pairs) (tagsOfFn pairs cache) t true).length : ℚ) +
        ((slugsWith (solvedMapOf pairs) (tagsOfFn pairs cache) t false).length : ℚ) := by
    have : 0 < (slugsWith (solvedMapOf pairs) (tagsOfFn pairs cache) t true).length +
        (slugsWith (solvedMapOf pairs) (tagsOfFn pairs cache) t false).length := hsum
    exact_mod_cast this
  exact ne_of_gt hpos

/-- The solved status of the last occurrence of a slug in the raw input. -/
def lastStatus (pairs : List (String × Bool)) (slug : String) : Option Bool :=
  ((pairs.filter (fun p => p.1 == slug)).getLast?).map Prod.snd

/-- C10: a slug occurring several times in `stat_status_pairs` contributes to
the aggregation with the solved status of its last occurrence only: for each
of its tags it sits in the matching set, not the other, and exactly once. -/
theorem dup_slug_last_wins (pairs : List (String × Option String))
    (cache : String → CacheResult (List String)) (slug tag : String) (b : Bool)
    (hlast : lastStatus (pairs.map (fun p => (p.1, statusToSolved p.2))) slug = some b)
    (htag : tag ∈ tagsOfFn pairs cache slug) :
    ∃ ti, (tag, ti) ∈ tagInfoMapOf pairs cache ∧
      (slug ∈ ti.solved ↔ b = true) ∧
      (slug ∈ ti.left ↔ b = false) ∧
      ti.solved.count slug + ti.left.count slug = 1 := by
  have hnd : ((solvedMapOf pairs).map Prod.fst).Nodup := by
    rw [solvedMapOf]
    exact nodup_keys_buildSolvedMap _
  have hlook : List.lookup slug (solvedMapOf pairs) = some b := by
    rw [solvedMapOf, lookup_buildSolvedMap]
    exact hlast
  have hmemsolved : (slug, b) ∈ solvedMapOf pairs := mem_of_lookup_eq_some _ _ _ hlook
  have hany : (solvedMapOf pairs).any
      (fun p => decide (tag ∈ tagsOfFn pairs cache p.1)) = true :=
    List.any_eq_true.mpr ⟨(slug, b), hmemsolved, decide_eq_true htag⟩
  have hlookup := lookup_buildTagInfoMap (tagsOfFn pairs cache) tag (solvedMapOf pairs) hnd
  rw [if_pos hany] at hlookup
  have hvalue : ∀ b2 : Bool, slug ∈
      slugsWith (solvedMapOf pairs) (tagsOfFn pairs cache) tag b2 ↔ b2 = b := by
    intro b2
    constructor
    · intro hs
      obtain ⟨hmem, _⟩ := (mem_slugsWith _ _ _ _ _).mp hs
      have := lookup_eq_some_of_mem _ hnd _ _ hmem
      rw [hlook] at this
      exact (Option.some_inj.mp this.symm)
    · intro hb
      subst hb
      exact (mem_slugsWith _ _ _ _ _).mpr ⟨hmemsolved, htag⟩
  refine ⟨⟨slugsWith (solvedMapOf pairs) (tagsOfFn pairs cache) tag true,
      slugsWith (solvedMapOf pairs) (tagsOfFn pairs cache) tag false⟩, ?_, ?_, ?_, ?_⟩
  · rw [tagInfoMapOf]
    exact mem_of_lookup_eq_some _ _ _ hlookup
  · show slug ∈ slugsWith (solvedMapOf pairs) (tagsOfFn pairs cache) tag true ↔ b = true
    rw [hvalue true]
    exact eq_comm
  · show slug ∈ slugsWith (solvedMapOf pairs) (tagsOfFn pairs cache) tag false ↔ b = false
    rw [hvalue false]
    exact eq_comm
  · show (slugsWith (solvedMapOf pairs) (tagsOfFn pairs cache) tag true).count slug +
      (slugsWith (solvedMapOf pairs) (tagsOfFn pairs cache) tag false).count slug = 1
    cases b with
    | true =>
        rw [List.count_eq_one_of_mem (nodup_slugsWith _ _ _ _ hnd)
          ((hvalue true).mpr rfl),
          List.count_eq_zero.mpr (fun hc => by cases (hvalue false).mp hc)]
    | false =>
        rw [List.count_eq_one_of_mem (nodup_slugsWith _ _ _ _ hnd)
          ((hvalue false).mpr rfl),
          List.count_eq_zero.mpr (fun hc => by cases (hvalue true).mp hc)]

/-! C1: the narrowing loop on an empty intersection. -/

/-- C1 (amended): a loop step always replaces the pool by the intersection,
even when that intersection is empty; on an empty intersection only the pick
is left unchanged, and from then on the pool stays empty and the pick is
frozen through all remaining tags. -/
theorem loop_empty_intersection (rand : ℕ → ℕ) (st : LoopState)
    (e : String × TagInfo) (entries : List (String × TagInfo))
    (h : st.pool.filter (fun s => decide (s ∈ e.2.left)) = []) :
    (loopStep rand st e).pool = [] ∧
      (loopStep rand st e).pick = st.pick ∧
      (entries.foldl (loopStep rand) (loopStep rand st e)).pool = [] ∧
      (entries.foldl (loopStep rand) (loopStep rand st e)).pick = st.pick := by
  have h1 : (loopStep rand st e).pool = [] := by
    rw [loopStep]
    exact h
  have h2 : (loopStep rand st e).pick = st.pick := by
    rw [loopStep]
    simp [h]
  obtain ⟨h3, h4⟩ := foldl_loopStep_of_empty rand entries _ h1
  exact ⟨h1, h2, h3, h4.trans h2⟩

/-- Input of the C1 counterexample run: problems a, b, c, f unsolved and d, e
solved (`status == "ac"`). -/
def c1pairs : List (String × Option String) :=
  [("a", none), ("b", none), ("c", none), ("d", some "ac"), ("e", some "ac"),
   ("f", none)]

/-- Cache of the C1 counterexample run: tag t1 on a and c, t2 on b, e and f,
t3 on a and d. -/
def c1cache : String → CacheResult (List String) := fun k =>
  if k = "a_tags" then CacheResult.ok ["t1", "t3"]
  else if k = "b_tags" then CacheResult.ok ["t2"]
  else if k = "c_tags" then CacheResult.ok ["t1"]
  else if k = "d_tags" then CacheResult.ok ["t3"]
  else if k = "e_tags" then CacheResult.ok ["t2"]
  else if k = "f_tags" then CacheResult.ok ["t2"]
  else CacheResult.absent

/-- Random oracle of the C1 counterexample run: the second `random.choice`
call picks index 1 ("c" from the narrowed pool), all others index 0. -/
def c1rand : ℕ → ℕ := fun n => if n = 1 then 1 else 0

/-- The sorted tag entries of the C1 run: ratios 0, 1/3, 1/2. -/
theorem c1_sorted : sortEntries (tagInfoMapOf c1pairs c1cache) =
    [("t1", ⟨[], ["a", "c"]⟩), ("t2", ⟨["e"], ["b", "f"]⟩),
     ("t3", ⟨["d"], ["a"]⟩)] := by
  have h : tagInfoMapOf c1pairs c1cache =
      [("t1", ⟨[], ["a", "c"]⟩), ("t3", ⟨["d"], ["a"]⟩),
       ("t2", ⟨["e"], ["b", "f"]⟩)] := by
    decide
  rw [h]
  norm_num [sortEntries, insertSorted, ratio]

/-- C1 counterexample: in the concrete run of `interpret` on `c1pairs`, after
tag t1 narrows the pool to ["a", "c"], tag t2's intersection with the pool is
empty — and the pool is *not* left at its previous non-empty value: it is
replaced by the empty intersection. Consequently tag t3 (whose left set
["a"] meets the old pool) can no longer narrow, and the run returns "c",
which is outside t3's left set. -/
theorem narrowing_pool_counterexample :
    sortEntries (tagInfoMapOf c1pairs c1cache) =
      [("t1", ⟨[], ["a", "c"]⟩), ("t2", ⟨["e"], ["b", "f"]⟩),
       ("t3", ⟨["d"], ["a"]⟩)] ∧
    (loopStep c1rand (initialStateOf c1pairs c1rand)
        ("t1", ⟨[], ["a", "c"]⟩)).pool = ["a", "c"] ∧
    ((loopStep c1rand (initialStateOf c1pairs c1rand)
        ("t1", ⟨[], ["a", "c"]⟩)).pool.filter
      (fun s => decide (s ∈ (TagInfo.mk ["e"] ["b", "f"]).left))) = [] ∧
    (loopStep c1rand (loopStep c1rand (initialStateOf c1pairs c1rand)
        ("t1", ⟨[], ["a", "c"]⟩)) ("t2", ⟨["e"], ["b", "f"]⟩)).pool ≠
      (loopStep c1rand (initialStateOf c1pairs c1rand)
        ("t1", ⟨[], ["a", "c"]⟩)).pool ∧
    interpret c1pairs c1cache c1rand =
      Except.ok ⟨"c", [("t1", ratio ⟨[], ["a", "c"]⟩ * 100),
        ("t2", ratio ⟨["e"], ["b", "f"]⟩ * 100),
        ("t3", ratio ⟨["d"], ["a"]⟩ * 100)]⟩ ∧
    "c" ∉ (TagInfo.mk ["d"] ["a"]).left := by
  refine ⟨c1_sorted, by decide, by decide, by decide, ?_, by decide⟩
  rw [interpret, c1_sorted]
  rfl

/-! Worker lemmas. -/

/-- A read directly after a write of the same key. -/
theorem cget_cset_self (c : Cache) (k : String) (v : CacheValue) (ttl : ℤ) :
    cget (cset c k v ttl) k = some (v, ttl) := by
  simp [cget, cset, List.find?_cons]

/-- A write leaves reads of other keys untouched. -/
theorem cget_cset_ne (c : Cache) (k k2 : String) (v : CacheValue) (ttl : ℤ)
    (h : k2 ≠ k) : cget (cset c k v ttl) k2 = cget c k2 := by
  have hb : (k == k2) = false := beq_eq_false_iff_ne.mpr (fun hh => h hh.symm)
  simp [cget, cset, List.find?_cons, hb]

/-- Strings of different lengths differ. -/
theorem ne_of_length_ne (a b : String) (h : a.length ≠ b.length) : a ≠ b :=
  fun e => h (e ▸ rfl)

/-- The tags key and the scheduler's tags key for the same slug never
coincide. -/
theorem key_tags_ne (slug : String) :
    (slug ++ "_tags") ≠ ("problem_" ++ slug ++ "_tags") := by
  apply ne_of_length_ne
  rw [String.length_append, String.length_append, String.length_append]
  have h8 : ("problem_" : String).length = 8 := by decide
  omega

/-- The tags key and the title key for the same slug never coincide. -/
theorem key_tags_ne_title (slug : String) :
    (slug ++ "_tags") ≠ ("problem_" ++ slug ++ "_title") := by
  apply ne_of_length_ne
  rw [String.length_append, String.length_append, String.length_append]
  have h8 : ("problem_" : String).length = 8 := by decide
  have h5 : ("_tags" : String).length = 5 := by decide
  have h6 : ("_title" : String).length = 6 := by decide
  omega

/-- The scheduler's tags key and the title key for the same slug never
coincide. -/
theorem key_problem_tags_ne_title (slug : String) :
    ("problem_" ++ slug ++ "_tags") ≠ ("problem_" ++ slug ++ "_title") := by
  apply ne_of_length_ne
  rw [String.length_append, String.length_append, String.length_append,
    String.length_append]
  have h5 : ("_tags" : String).length = 5 := by decide
  have h6 : ("_title" : String).length = 6 := by decide
  omega

/-- After a population pass, the completeness check of `check_cache_problem`
reports the slug as cached. -/
theorem check_after_population (provider : String → ProblemDetail) (jitter : ℤ)
    (c : Cache) (slug : String) :
    check_cache_problem (invalidate_cache provider jitter c slug).1 slug = true := by
  rw [invalidate_cache]
  by_cases h : check_cache_problem c slug
  · rw [if_pos h]
    exact h
  · rw [if_neg h]
    show check_cache_problem
      (applyWrites c (populationWrites (provider slug) slug (86400 * 30 + jitter)))
      slug = true
    rw [populationWrites, applyWrites, List.foldl_append, List.foldl_cons,
      List.foldl_cons, List.foldl_cons, List.foldl_nil]
    rw [check_cache_problem]
    rw [cget_cset_ne _ _ _ _ _ (key_tags_ne_title slug),
      cget_cset_ne _ _ _ _ _ (key_tags_ne slug), cget_cset_self,
      cget_cset_ne _ _ _ _ _ (key_problem_tags_ne_title slug), cget_cset_self,
      cget_cset_self]
    rfl

/-! Worker claim theorems. -/

/-- C2 (code evaluation at the failing input): with the two tag-list keys and
the title key cached but no name entry for the listed tag "array",
`check_cache_problem` still returns `true` — the source's `all(...) is not
None` is identically true, so the per-tag-name conjunct never fires. -/
theorem check_cache_problem_ignores_tag_names :
    check_cache_problem
        [("two-sum_tags", CacheValue.list ["array"], 100),
         ("problem_two-sum_tags", CacheValue.list ["array"], 100),
         ("problem_two-sum_title", CacheValue.str "Two Sum", 100)] "two-sum" = true ∧
      cget [("two-sum_tags", CacheValue.list ["array"], 100),
         ("problem_two-sum_tags", CacheValue.list ["array"], 100),
         ("problem_two-sum_title", CacheValue.str "Two Sum", 100)]
        ("tag_" ++ "array" ++ "_name") = none ∧
      check_cache_tag
        [("two-sum_tags", CacheValue.list ["array"], 100),
         ("problem_two-sum_tags", CacheValue.list ["array"], 100),
         ("problem_two-sum_title", CacheValue.str "Two Sum", 100)] "array" = false := by
  refine ⟨by decide, by decide, by decide⟩

/-- C6: a second population pass on the same slug is a no-op — the cache is
unchanged (byte-identical state) and the upstream provider is not queried —
because the completeness check passes after the first pass. -/
theorem invalidate_cache_idempotent (provider : String → ProblemDetail)
    (j1 j2 : ℤ) (c : Cache) (slug : String) :
    (invalidate_cache provider j2 (invalidate_cache provider j1 c slug).1 slug).1 =
        (invalidate_cache provider j1 c slug).1 ∧
      (invalidate_cache provider j2 (invalidate_cache provider j1 c slug).1 slug).2.1 =
        false ∧
      check_cache_problem (invalidate_cache provider j1 c slug).1 slug = true := by
  have hcheck := check_after_population provider j1 c slug
  refine ⟨?_, ?_, hcheck⟩
  · conv_lhs => rw [invalidate_cache]
    rw [if_pos hcheck]
  · conv_lhs => rw [invalidate_cache]
    rw [if_pos hcheck]

/-- C9: within one population of a slug, every write carries the same TTL,
equal to thirty days plus the drawn jitter, hence between 29 and 31 days. -/
theorem population_ttl (provider : String → ProblemDetail) (j : ℤ) (c : Cache)
    (slug : String) (w : String × CacheValue × ℤ)
    (hjl : -86400 ≤ j) (hju : j ≤ 86400)
    (hw : w ∈ (invalidate_cache provider j c slug).2.2) :
    w.2.2 = 86400 * 30 + j ∧ 86400 * 29 ≤ w.2.2 ∧ w.2.2 ≤ 86400 * 31 := by
  have heq : w.2.2 = 86400 * 30 + j := by
    rw [invalidate_cache] at hw
    by_cases h : check_cache_problem c slug
    · rw [if_pos h] at hw
      cases hw
    · rw [if_neg h] at hw
      rw [populationWrites] at hw
      rcases List.mem_append.mp hw with h1 | h1
      · obtain ⟨tg, _, htg⟩ := List.mem_map.mp h1
        rw [← htg]
      · simp only [List.mem_cons] at h1
        rcases h1 with h1 | h1 | h1 | h1
        · rw [h1]
        · rw [h1]
        · rw [h1]
        · cases h1
  refine ⟨heq, ?_, ?_⟩ <;> omega

/-! Witnesses: each hypothesis-bearing claim theorem applied at a concrete
input with the hypotheses discharged by evaluation. -/

/-- Witness for the C3 theorem on a one-problem run with an empty cache. -/
theorem interpret_pick_mem_witness :
    (InterpretResult.mk "a" []).to_solve ∈ problemKeys [("a", none)] ∧
      (InterpretResult.mk "a" []).to_solve ∈
        (([("a", none)] : List (String × Option String)).map Prod.fst) :=
  interpret_pick_mem [("a", none)] (fun _ => CacheResult.absent) (fun _ => 0)
    ⟨"a", []⟩ rfl

/-- Witness for the C4 theorem on a run with one unsolved problem carrying
one tag. -/
theorem interpret_progress_sorted_witness :
    (InterpretResult.mk "p1" [("dp", ratio ⟨[], ["p1"]⟩ * 100)]).tag_progress.Pairwise
        (fun a b => a.2 ≤ b.2) ∧
      ∀ q ∈ (InterpretResult.mk "p1"
          [("dp", ratio ⟨[], ["p1"]⟩ * 100)]).tag_progress,
        0 ≤ q.2 ∧ q.2 ≤ 100 :=
  interpret_progress_sorted [("p1", none)]
    (fun k => if k = "p1_tags" then CacheResult.ok ["dp"] else CacheResult.absent)
    (fun _ => 0) ⟨"p1", [("dp", ratio ⟨[], ["p1"]⟩ * 100)]⟩ rfl

/-- Witness for the C5 theorem on the empty submission history. -/
theorem interpret_empty_input_witness :
    interpret [] (fun _ => CacheResult.absent) (fun _ => 0) =
      Except.error "IndexError: cannot choose from an empty sequence" :=
  interpret_empty_input [] (fun _ => CacheResult.absent) (fun _ => 0) rfl

/-- Witness for the C7 theorem with a cache whose every read raises. -/
theorem get_tags_degraded_witness :
    get_tags (fun _ => CacheResult.err) "a" = [] ∧
      ("a" ∈ problemKeys [("a", none)] →
        List.lookup "a" (problemToTagsOf [("a", none)] (fun _ => CacheResult.err)) =
          some []) ∧
      ("a" ∈ problemKeys [("a", none)] →
        "a" ∈ (initialStateOf [("a", none)] (fun _ => 0)).pool) ∧
      (∀ t ti, (t, ti) ∈ tagInfoMapOf [("a", none)] (fun _ => CacheResult.err) →
        "a" ∉ ti.solved ∧ "a" ∉ ti.left) :=
  get_tags_degraded [("a", none)] (fun _ => CacheResult.err) (fun _ => 0) "a"
    (Or.inl rfl)

/-- Witness for the C8 theorem on a one-problem, one-tag aggregation. -/
theorem tagInfoMap_invariant_witness :
    (∀ s, s ∈ (TagInfo.mk ["s1"] []).solved → s ∉ (TagInfo.mk ["s1"] []).left) ∧
      1 ≤ (TagInfo.mk ["s1"] []).solved.length + (TagInfo.mk ["s1"] []).left.length ∧
      (((TagInfo.mk ["s1"] []).solved.length : ℚ) +
        ((TagInfo.mk ["s1"] []).left.length : ℚ)) ≠ 0 :=
  tagInfoMap_invariant [("s1", some "ac")]
    (fun k => if k = "s1_tags" then CacheResult.ok ["t"] else CacheResult.absent)
    "t" ⟨["s1"], []⟩ (by decide)

/-- Witness for the C10 theorem: the slug "a" appears twice, solved first and
unsolved last, and lands in the left set only. -/
theorem dup_slug_last_wins_witness :
    ∃ ti, ("t", ti) ∈ tagInfoMapOf [("a", some "ac"), ("a", none)]
        (fun k => if k = "a_tags" then CacheResult.ok ["t"] else CacheResult.absent) ∧
      ("a" ∈ ti.solved ↔ false = true) ∧
      ("a" ∈ ti.left ↔ false = false) ∧
      ti.solved.count "a" + ti.left.count "a" = 1 :=
  dup_slug_last_wins [("a", some "ac"), ("a", none)]
    (fun k => if k = "a_tags" then CacheResult.ok ["t"] else CacheResult.absent)
    "a" "t" false (by decide) (by decide)

/-- Witness for the amended C1 theorem at a concrete empty intersection. -/
theorem loop_empty_intersection_witness :
    (loopStep (fun _ => 0) ⟨["a"], "a", [], 1⟩ ("t", ⟨[], ["b"]⟩)).pool = [] ∧
      (loopStep (fun _ => 0) ⟨["a"], "a", [], 1⟩ ("t", ⟨[], ["b"]⟩)).pick = "a" ∧
      ([("u", ⟨[], ["a"]⟩)].foldl (loopStep (fun _ => 0))
        (loopStep (fun _ => 0) ⟨["a"], "a", [], 1⟩ ("t", ⟨[], ["b"]⟩))).pool = [] ∧
      ([("u", ⟨[], ["a"]⟩)].foldl (loopStep (fun _ => 0))
        (loopStep (fun _ => 0) ⟨["a"], "a", [], 1⟩ ("t", ⟨[], ["b"]⟩))).pick = "a" :=
  loop_empty_intersection (fun _ => 0) ⟨["a"], "a", [], 1⟩ ("t", ⟨[], ["b"]⟩)
    [("u", ⟨[], ["a"]⟩)] (by decide)

/-- Witness for the C9 theorem: populating slug "s" with zero jitter writes
the tag-name entry with TTL exactly thirty days. -/
theorem population_ttl_witness :
    ((("tag_t_name", CacheValue.str "Tag", (2592000 : ℤ)) :
        String × CacheValue × ℤ)).2.2 = 86400 * 30 + 0 ∧
      86400 * 29 ≤ ((("tag_t_name", CacheValue.str "Tag", (2592000 : ℤ)) :
        String × CacheValue × ℤ)).2.2 ∧
      ((("tag_t_name", CacheValue.str "Tag", (2592000 : ℤ)) :
        String × CacheValue × ℤ)).2.2 ≤ 86400 * 31 :=
  population_ttl (fun _ => ⟨"T", [("t", "Tag")]⟩) 0 [] "s"
    ("tag_t_name", CacheValue.str "Tag", (2592000 : ℤ))
    (by norm_num) (by norm_num) (by decide)

end GrindHelper
